import Mathlib

/-! Shallow embedding of the goblineer-updater auction pipeline.

Source of truth:
* `src/update.py`, `GoblineerUpdater.parse_auctions` (lines 150-200): groups raw
  auction listings into per-variant price histograms using a
  `defaultdict(dict)`, where the variant key is the tuple
  `(item_id, bonus_id_1, ..., bonus_id_n)` and each histogram maps the
  normalized unit price (`buy_price / 10000`) to the accumulated quantity.
* `src/main.py`, `main` (lines 39-48): folds the parsed map into a list of
  per-variant market-value summaries by calling the `marketvalue` estimator on
  each histogram.

Python dictionaries preserve insertion order and update values in place, so a
dictionary is embedded as an association list with "update in place or append"
semantics.  Missing dictionary keys raise `KeyError` and a non-list argument
raises `TypeError`; fallible code is embedded in `Except`.  Prices are embedded
as rationals (`buy_price / 10000` is exact), quantities as integers.
-/

namespace Goblineer

/-- The item sub-record of a listing.  `id` is optional because a malformed
record may lack the id key (accessing it raises `KeyError`); `bonus_lists` is
optional exactly as in the source, which tests membership of bonus_lists in
the item record before iterating it. -/
structure Item where
  id : Option Int
  bonus_lists : Option (List Int)
  deriving DecidableEq

/-- One auction listing, as consumed by `parse_auctions`.  Each field models
one Python dictionary key; `none` models the key being absent. -/
structure Auction where
  buyout : Option Int
  unit_price : Option Int
  item : Option Item
  quantity : Option Int
  deriving DecidableEq

/-- A variant key: the Python tuple `(item_id, bonus_id_1, ..., bonus_id_n)`. -/
abbrev VariantKey := List Int

/-- A per-variant histogram: the inner Python dict mapping normalized unit
price to accumulated quantity, as an insertion-ordered association list. -/
abbrev Hist := List (ℚ × Int)

/-- The aggregation result: the outer `defaultdict(dict)`, as an
insertion-ordered association list from variant key to histogram. -/
abbrev AucMap := List (VariantKey × Hist)

/-- The Python exceptions `parse_auctions` can raise. -/
inductive PyError where
  | typeError : PyError
  | keyError : PyError
  deriving DecidableEq

/-- The Python test that a price field is both present in the record and
nonzero. -/
def hasNonzero : Option Int → Bool
  | some v => v != 0
  | none => false

/-- Price selection, `update.py` lines 172-178: prefer a present nonzero
`buyout`, else a present nonzero `unit_price`, else no usable price. -/
def buyPrice (a : Auction) : Option Int :=
  if hasNonzero a.buyout then a.buyout
  else if hasNonzero a.unit_price then a.unit_price
  else none

/-- Lookup in the inner price dict (`unit_price in parsed_auctions[dict_key]`). -/
def histLookup : Hist → ℚ → Option Int
  | [], _ => none
  | (p0, q0) :: t, p => if p0 = p then some q0 else histLookup t p

/-- Python dict assignment `d[p] = q` on the inner dict: update in place if the
key exists, otherwise append the new entry. -/
def histSet : Hist → ℚ → Int → Hist
  | [], p, q => [(p, q)]
  | (p0, q0) :: t, p, q => if p0 = p then (p0, q) :: t else (p0, q0) :: histSet t p q

/-- The quantity stored at price `p`, defaulting to 0 when absent. -/
def histGet (h : Hist) (p : ℚ) : Int := (histLookup h p).getD 0

/-- `update.py` lines 195-198: `d[p] += q` if `p in d` else `d[p] = q`. -/
def histAdd (h : Hist) (p : ℚ) (q : Int) : Hist :=
  match histLookup h p with
  | some q0 => histSet h p (q0 + q)
  | none => histSet h p q

/-- Lookup in the outer dict keyed by variant tuple. -/
def dictLookup : AucMap → VariantKey → Option Hist
  | [], _ => none
  | (k0, h0) :: t, k => if k0 = k then some h0 else dictLookup t k

/-- Python dict assignment on the outer dict: in place or append. -/
def dictSet : AucMap → VariantKey → Hist → AucMap
  | [], k, h => [(k, h)]
  | (k0, h0) :: t, k, h => if k0 = k then (k0, h) :: t else (k0, h0) :: dictSet t k h

/-- The `defaultdict(dict)` read `parsed_auctions[dict_key]`: the stored
histogram, or the fresh empty dict the defaultdict would insert. -/
def dictGet (m : AucMap) (k : VariantKey) : Hist := (dictLookup m k).getD []

/-- The combined effect of `update.py` lines 193-198 on the outer dict: add
quantity `q` at price `p` under variant `k`, creating entries as needed. -/
def dictAdd (m : AucMap) (k : VariantKey) (p : ℚ) (q : Int) : AucMap :=
  dictSet m k (histAdd (dictGet m k) p q)

/-- `update.py` lines 183-191: the dict key starts with the item id and
appends each bonus id, in order, when `bonus_lists` is present. -/
def mkKey (iid : Int) : Option (List Int) → VariantKey
  | some bs => iid :: bs
  | none => [iid]

/-- One iteration of the `for auc in auctions` loop (`update.py` lines
170-198), acting on the accumulated map.  The price test comes first; a
listing with no usable price is skipped before the item field or the
quantity field is ever read.  A missing `item`, `item.id` or `quantity`
key raises `KeyError`, mirroring the field-access order of the source. -/
def processAuction (st : AucMap) (a : Auction) : Except PyError AucMap :=
  match buyPrice a with
  | none => Except.ok st
  | some bp =>
    match a.item with
    | none => Except.error PyError.keyError
    | some it =>
      match it.id with
      | none => Except.error PyError.keyError
      | some iid =>
        match a.quantity with
        | none => Except.error PyError.keyError
        | some q =>
          Except.ok (dictAdd st (mkKey iid it.bonus_lists) ((bp : ℚ) / 10000) q)

/-- The `for` loop of `parse_auctions`, folding `processAuction` over the
listing sequence; an exception aborts the whole call with no partial result. -/
def parseLoop : List Auction → AucMap → Except PyError AucMap
  | [], st => Except.ok st
  | a :: t, st =>
    match processAuction st a with
    | Except.ok st2 => parseLoop t st2
    | Except.error e => Except.error e

/-- `GoblineerUpdater.parse_auctions` (`update.py` lines 150-200), starting
from the empty `defaultdict(dict)`. -/
def parse_auctions (aucs : List Auction) : Except PyError AucMap :=
  parseLoop aucs []

/-- The dynamically typed argument of `parse_auctions`: either an actual list
of listings or any non-list Python value. -/
inductive Input where
  | list : List Auction → Input
  | notAList : Input

/-- `parse_auctions` including the `isinstance(auctions, list)` guard of
`update.py` lines 165-166, which raises `TypeError` on a non-list argument. -/
def parse_auctions_checked : Input → Except PyError AucMap
  | Input.list aucs => parse_auctions aucs
  | Input.notAList => Except.error PyError.typeError

/-- Total quantity stored in a histogram (sum of the dict's values). -/
def histTotal (h : Hist) : Int := (h.map Prod.snd).sum

/-- The price keys of a histogram, in insertion order. -/
def histKeys (h : Hist) : List ℚ := h.map Prod.fst

/-- What a single listing deposits into the map, if anything: the variant key,
normalized unit price and quantity used by `processAuction`, or `none` when
the listing is skipped or malformed. -/
def contribOf (a : Auction) : Option (VariantKey × ℚ × Int) :=
  match buyPrice a with
  | none => none
  | some bp =>
    match a.item with
    | none => none
    | some it =>
      match it.id with
      | none => none
      | some iid =>
        match a.quantity with
        | none => none
        | some q => some (mkKey iid it.bonus_lists, (bp : ℚ) / 10000, q)

/-- The quantity a listing contributes to variant `k` (0 when it is skipped,
malformed, or belongs to another variant). -/
def contribQ (a : Auction) (k : VariantKey) : Int :=
  match contribOf a with
  | some c => if c.1 = k then c.2.2 else 0
  | none => 0

/-- The quantity a listing contributes to the `(k, p)` bucket. -/
def contribQP (a : Auction) (k : VariantKey) (p : ℚ) : Int :=
  match contribOf a with
  | some c => if c.1 = k ∧ c.2.1 = p then c.2.2 else 0
  | none => 0

/-- The listing lands in bucket `(k, p)`. -/
def HitsKP (a : Auction) (k : VariantKey) (p : ℚ) : Prop :=
  ∃ q, contribOf a = some (k, p, q)

/-- The listing lands under variant key `k`. -/
def HitsK (a : Auction) (k : VariantKey) : Prop :=
  ∃ p q, contribOf a = some (k, p, q)

/-- Total quantity recorded under variant `k` (0 when the key is absent). -/
def dictTotal (m : AucMap) (k : VariantKey) : Int := histTotal (dictGet m k)

/-- The quantity recorded at bucket `(k, p)`, `none` when the bucket (or the
whole variant) is absent from the map. -/
def optQty (m : AucMap) (k : VariantKey) (p : ℚ) : Option Int :=
  histLookup (dictGet m k) p

/-- The quantity recorded at bucket `(k, p)`, defaulting to 0. -/
def qtyAt (m : AucMap) (k : VariantKey) (p : ℚ) : Int := histGet (dictGet m k) p

/-- Every histogram stored in the map is nonempty. -/
def NeMap (m : AucMap) : Prop := ∀ k h, dictLookup m k = some h → h ≠ []

/-- Every histogram stored in the map has quantities at least 1 and
pairwise-distinct price keys. -/
def GoodMap (m : AucMap) : Prop :=
  ∀ k h, dictLookup m k = some h → (∀ pq ∈ h, 1 ≤ pq.2) ∧ (histKeys h).Nodup

/-- The first C3 listing: item 100, empty bonus list, buyout 100000, qty 1. -/
def aucC3a : Auction := ⟨some 100000, none, some ⟨some 100, some []⟩, some 1⟩

/-- The second C3 listing: item 100, empty bonus list, unit price 8000, qty 5. -/
def aucC3b : Auction := ⟨none, some 8000, some ⟨some 100, some []⟩, some 5⟩

/-- The third C3 listing: item 100, buyout 0 and unit price 0, qty 3. -/
def aucC3c : Auction := ⟨some 0, some 0, some ⟨some 100, some []⟩, some 3⟩

/-- A C7 counterexample listing: the item id is missing (the whole `item`
record is absent), but so is any usable price. -/
def aucC7bad : Auction := ⟨none, none, none, some 3⟩

/-- Modelled from the spec: the `marketvalue` module imported by `main.py` is
not under `src/`.  Minimum price of a histogram — the smallest key present
(spec section 4.2).  The value on the empty histogram is an arbitrary
default; per the spec the estimator is never invoked on an empty histogram. -/
def minKey : Hist → ℚ
  | [] => 0
  | pq :: t => t.foldl (fun acc x => min acc x.1) pq.1

/-- Modelled from the spec: quantity-weighted sum of the prices of a
histogram (the numerator of a quantity-weighted mean). -/
def weightedSum (h : Hist) : ℚ := (h.map (fun pq => pq.1 * (pq.2 : ℚ))).sum

/-- Modelled from the spec: total quantity of a histogram, as a rational (the
denominator of a quantity-weighted mean). -/
def totalQtyQ (h : Hist) : ℚ := (h.map (fun pq => (pq.2 : ℚ))).sum

/-- Modelled from the spec: the outlier-damping trim of spec sections 4.2/9 —
keep the entries whose price is at most a fixed multiple (3) of the minimum
observed price, discarding extreme high-price listings.  The exact constant
is the policy choice the spec leaves to the implementer. -/
def mvTrim (h : Hist) : Hist := h.filter (fun pq => pq.1 ≤ 3 * minKey h)

/-- Modelled from the spec: the market value — the quantity-weighted mean
price of the trimmed histogram (deterministic, order-independent weighting
over the histogram, damping extreme high prices). -/
def marketvalue (h : Hist) : ℚ := weightedSum (mvTrim h) / totalQtyQ (mvTrim h)

/-- One output row of `main.py` lines 42-48.  The `str(...)` conversion of
the three numeric fields is omitted; the numbers themselves are kept. -/
structure MVEntry where
  item : Int
  bonusIds : List Int
  marketvalue : ℚ
  quantity : Int
  MIN : ℚ
  deriving DecidableEq

/-- The orchestrator loop of `main.py` lines 39-48: one summary entry per
variant of the parsed map, in order, each obtained by invoking the
`marketvalue` estimator on the variant's histogram (`item_ids[0]` is the item
id, `item_ids[1:]` the bonus ids; on an empty key, which `parse_auctions`
never produces, the item id defaults to 0 where Python would raise).
The `quantity` and `MIN` summary fields are modelled from the spec
(section 4.2): total quantity and minimum price of the histogram. -/
def buildMarketvalues (parsed : AucMap) : List MVEntry :=
  parsed.map (fun kh =>
    { item := kh.1.headI
      bonusIds := kh.1.tail
      marketvalue := marketvalue kh.2
      quantity := histTotal kh.2
      MIN := minKey kh.2 })

/-- Price-scaling of a histogram: every price key multiplied by `c`,
quantities unchanged. -/
def scaleHist (c : ℚ) (h : Hist) : Hist := h.map (fun pq => (c * pq.1, pq.2))

theorem histSet_ne_nil (h : Hist) (p : ℚ) (q : Int) : histSet h p q ≠ [] := by
  cases h with
  | nil => simp [histSet]
  | cons hd t =>
    obtain ⟨p0, q0⟩ := hd
    by_cases hp : p0 = p <;> simp [histSet, hp]

theorem histAdd_ne_nil (h : Hist) (p : ℚ) (q : Int) : histAdd h p q ≠ [] := by
  unfold histAdd
  cases histLookup h p <;> apply histSet_ne_nil

theorem histAdd_cons_ne (p0 : ℚ) (q0 : Int) (t : Hist) (p : ℚ) (q : Int) (hne : p0 ≠ p) :
    histAdd ((p0, q0) :: t) p q = (p0, q0) :: histAdd t p q := by
  unfold histAdd
  simp only [histLookup, if_neg hne]
  cases histLookup t p <;> simp [histSet, if_neg hne]

theorem histLookup_histAdd_self (h : Hist) (p : ℚ) (q : Int) :
    histLookup (histAdd h p q) p = some (histGet h p + q) := by
  induction h with
  | nil => simp [histAdd, histLookup, histSet, histGet]
  | cons hd t ih =>
    obtain ⟨p0, q0⟩ := hd
    by_cases hp : p0 = p
    · subst hp
      simp [histAdd, histLookup, histSet, histGet]
    · rw [histAdd_cons_ne p0 q0 t p q hp]
      simp only [histLookup, if_neg hp]
      rw [ih]
      have : histGet ((p0, q0) :: t) p = histGet t p := by
        simp [histGet, histLookup, if_neg hp]
      rw [this]

theorem histLookup_histAdd_ne (h : Hist) (p p' : ℚ) (q : Int) (hne : p' ≠ p) :
    histLookup (histAdd h p q) p' = histLookup h p' := by
  induction h with
  | nil => simp [histAdd, histLookup, histSet, Ne.symm hne]
  | cons hd t ih =>
    obtain ⟨p0, q0⟩ := hd
    by_cases hp : p0 = p
    · subst hp
      simp [histAdd, histLookup, histSet, Ne.symm hne]
    · rw [histAdd_cons_ne p0 q0 t p q hp]
      by_cases hp' : p0 = p'
      · simp [histLookup, hp']
      · simp [histLookup, hp', ih]

theorem histTotal_histAdd (h : Hist) (p : ℚ) (q : Int) :
    histTotal (histAdd h p q) = histTotal h + q := by
  induction h with
  | nil => simp [histAdd, histLookup, histSet, histTotal]
  | cons hd t ih =>
    obtain ⟨p0, q0⟩ := hd
    by_cases hp : p0 = p
    · subst hp
      simp [histAdd, histLookup, histSet, histTotal]
      ring
    · rw [histAdd_cons_ne p0 q0 t p q hp]
      simp only [histTotal, List.map_cons, List.sum_cons] at ih ⊢
      omega

@[simp]
theorem histKeys_nil : histKeys [] = [] := rfl

@[simp]
theorem histKeys_cons (p0 : ℚ) (q0 : Int) (t : Hist) :
    histKeys ((p0, q0) :: t) = p0 :: histKeys t := rfl

theorem histLookup_eq_none_iff (h : Hist) (p : ℚ) :
    histLookup h p = none ↔ p ∉ histKeys h := by
  induction h with
  | nil => simp [histLookup]
  | cons hd t ih =>
    obtain ⟨p0, q0⟩ := hd
    by_cases hp : p0 = p
    · subst hp
      simp [histLookup]
    · simp [histLookup, hp, ih, Ne.symm hp]

theorem histKeys_histSet_mem (h : Hist) (p : ℚ) (q : Int) (hp : p ∈ histKeys h) :
    histKeys (histSet h p q) = histKeys h := by
  induction h with
  | nil => simp at hp
  | cons hd t ih =>
    obtain ⟨p0, q0⟩ := hd
    by_cases h0 : p0 = p
    · simp [histSet, h0]
    · have hmem : p ∈ histKeys t := by
        rcases List.mem_cons.mp (by simpa using hp) with h1 | h1
        · exact absurd h1.symm h0
        · exact h1
      simp [histSet, h0, ih hmem]

theorem histKeys_histSet_not_mem (h : Hist) (p : ℚ) (q : Int) (hp : p ∉ histKeys h) :
    histKeys (histSet h p q) = histKeys h ++ [p] := by
  induction h with
  | nil => simp [histSet]
  | cons hd t ih =>
    obtain ⟨p0, q0⟩ := hd
    have h0 : p0 ≠ p := by
      intro hc
      exact hp (by simp [hc])
    have hpt : p ∉ histKeys t := fun hc => hp (by simp [hc])
    simp [histSet, h0, ih hpt]

theorem histKeys_nodup_histAdd (h : Hist) (p : ℚ) (q : Int)
    (hnd : (histKeys h).Nodup) : (histKeys (histAdd h p q)).Nodup := by
  unfold histAdd
  cases hl : histLookup h p with
  | some q0 =>
    have hp : p ∈ histKeys h := by
      by_contra hc
      rw [(histLookup_eq_none_iff h p).mpr hc] at hl
      cases hl
    rw [histKeys_histSet_mem h p _ hp]
    exact hnd
  | none =>
    have hp : p ∉ histKeys h := (histLookup_eq_none_iff h p).mp hl
    rw [histKeys_histSet_not_mem h p _ hp]
    simp [List.nodup_append, hnd, hp]

theorem histAdd_pos (h : Hist) (p : ℚ) (q : Int) (hq : 1 ≤ q)
    (hh : ∀ pq ∈ h, 1 ≤ pq.2) : ∀ pq ∈ histAdd h p q, 1 ≤ pq.2 := by
  induction h with
  | nil =>
    intro pq hpq
    simp [histAdd, histLookup, histSet] at hpq
    rw [hpq]
    exact hq
  | cons hd t ih =>
    obtain ⟨p0, q0⟩ := hd
    by_cases hp : p0 = p
    · subst hp
      intro pq hpq
      have hq0 : 1 ≤ q0 := hh (p0, q0) (by simp)
      simp [histAdd, histLookup, histSet] at hpq
      rcases hpq with h1 | h1
      · rw [h1]
        dsimp only
        omega
      · exact hh pq (by simp [h1])
    · rw [histAdd_cons_ne p0 q0 t p q hp]
      intro pq hpq
      rcases List.mem_cons.mp hpq with h1 | h1
      · rw [h1]
        exact hh (p0, q0) (by simp)
      · exact ih (fun x hx => hh x (by simp [hx])) pq h1

theorem dictLookup_dictSet_self (m : AucMap) (k : VariantKey) (h : Hist) :
    dictLookup (dictSet m k h) k = some h := by
  induction m with
  | nil => simp [dictSet, dictLookup]
  | cons hd t ih =>
    obtain ⟨k0, h0⟩ := hd
    by_cases hk : k0 = k <;> simp [dictSet, dictLookup, hk, ih]

theorem dictLookup_dictSet_ne (m : AucMap) (k k' : VariantKey) (h : Hist) (hne : k ≠ k') :
    dictLookup (dictSet m k h) k' = dictLookup m k' := by
  induction m with
  | nil => simp [dictSet, dictLookup, hne]
  | cons hd t ih =>
    obtain ⟨k0, h0⟩ := hd
    by_cases hk : k0 = k
    · subst hk
      simp [dictSet, dictLookup, hne]
    · by_cases hk' : k0 = k'
      · subst hk'
        simp [dictSet, dictLookup, hk]
      · simp [dictSet, dictLookup, hk, hk', ih]

theorem dictLookup_dictSet_cases (m : AucMap) (k : VariantKey) (h : Hist)
    (k'' : VariantKey) (h'' : Hist) (hl : dictLookup (dictSet m k h) k'' = some h'') :
    h'' = h ∨ dictLookup m k'' = some h'' := by
  by_cases hk : k = k''
  · subst hk
    rw [dictLookup_dictSet_self] at hl
    exact Or.inl (Option.some.inj hl).symm
  · right
    rwa [dictLookup_dictSet_ne m k k'' h hk] at hl

theorem dictLookup_dictAdd_self (m : AucMap) (k : VariantKey) (p : ℚ) (q : Int) :
    dictLookup (dictAdd m k p q) k = some (histAdd (dictGet m k) p q) :=
  dictLookup_dictSet_self m k _

theorem dictGet_dictAdd_self (m : AucMap) (k : VariantKey) (p : ℚ) (q : Int) :
    dictGet (dictAdd m k p q) k = histAdd (dictGet m k) p q := by
  simp [dictGet, dictLookup_dictAdd_self]

theorem dictLookup_dictAdd_ne (m : AucMap) (k k' : VariantKey) (p : ℚ) (q : Int)
    (hne : k ≠ k') : dictLookup (dictAdd m k p q) k' = dictLookup m k' :=
  dictLookup_dictSet_ne m k k' _ hne

theorem dictGet_dictAdd_ne (m : AucMap) (k k' : VariantKey) (p : ℚ) (q : Int)
    (hne : k ≠ k') : dictGet (dictAdd m k p q) k' = dictGet m k' := by
  simp [dictGet, dictLookup_dictAdd_ne m k k' p q hne]

theorem processAuction_skip (st : AucMap) (a : Auction) (h : buyPrice a = none) :
    processAuction st a = Except.ok st := by
  unfold processAuction
  rw [h]

theorem processAuction_ok_cases (st : AucMap) (a : Auction) (st' : AucMap)
    (h : processAuction st a = Except.ok st') :
    (contribOf a = none ∧ st' = st) ∨
      (∃ k p q, contribOf a = some (k, p, q) ∧ st' = dictAdd st k p q) := by
  cases hbp : buyPrice a with
  | none =>
    simp only [processAuction, hbp] at h
    exact Or.inl ⟨by simp [contribOf, hbp], (Except.ok.inj h).symm⟩
  | some bp =>
    cases hit : a.item with
    | none =>
      simp only [processAuction, hbp, hit] at h
      exact Except.noConfusion h
    | some it =>
      cases hid : it.id with
      | none =>
        simp only [processAuction, hbp, hit, hid] at h
        exact Except.noConfusion h
      | some iid =>
        cases hq : a.quantity with
        | none =>
          simp only [processAuction, hbp, hit, hid, hq] at h
          exact Except.noConfusion h
        | some q =>
          simp only [processAuction, hbp, hit, hid, hq] at h
          exact Or.inr ⟨mkKey iid it.bonus_lists, (bp : ℚ) / 10000, q,
            by simp [contribOf, hbp, hit, hid, hq], (Except.ok.inj h).symm⟩

theorem contribOf_quantity (a : Auction) (k : VariantKey) (p : ℚ) (q : Int)
    (h : contribOf a = some (k, p, q)) : a.quantity = some q := by
  cases hbp : buyPrice a with
  | none =>
    simp only [contribOf, hbp] at h
    exact Option.noConfusion h
  | some bp =>
    cases hit : a.item with
    | none =>
      simp only [contribOf, hbp, hit] at h
      exact Option.noConfusion h
    | some it =>
      cases hid : it.id with
      | none =>
        simp only [contribOf, hbp, hit, hid] at h
        exact Option.noConfusion h
      | some iid =>
        cases hq : a.quantity with
        | none =>
          simp only [contribOf, hbp, hit, hid, hq] at h
          exact Option.noConfusion h
        | some q2 =>
          simp only [contribOf, hbp, hit, hid, hq, Option.some.injEq] at h
          have h2 : q2 = q := congrArg (fun c => c.2.2) h
          rw [h2]

theorem histGet_histAdd_self (h : Hist) (p : ℚ) (q : Int) :
    histGet (histAdd h p q) p = histGet h p + q := by
  simp [histGet, histLookup_histAdd_self]

theorem histGet_histAdd_ne (h : Hist) (p p' : ℚ) (q : Int) (hne : p' ≠ p) :
    histGet (histAdd h p q) p' = histGet h p' := by
  simp [histGet, histLookup_histAdd_ne h p p' q hne]

theorem step_total (st : AucMap) (a : Auction) (st' : AucMap)
    (h : processAuction st a = Except.ok st') (k : VariantKey) :
    dictTotal st' k = dictTotal st k + contribQ a k := by
  rcases processAuction_ok_cases st a st' h with ⟨hc, hst⟩ | ⟨k0, p0, q0, hc, hst⟩
  · subst hst
    simp [contribQ, hc]
  · subst hst
    by_cases hk : k0 = k
    · subst hk
      simp [dictTotal, dictGet_dictAdd_self, histTotal_histAdd, contribQ, hc]
    · simp [dictTotal, dictGet_dictAdd_ne st k0 k p0 q0 hk, contribQ, hc, hk]

theorem step_qty (st : AucMap) (a : Auction) (st' : AucMap)
    (h : processAuction st a = Except.ok st') (k : VariantKey) (p : ℚ) :
    qtyAt st' k p = qtyAt st k p + contribQP a k p := by
  rcases processAuction_ok_cases st a st' h with ⟨hc, hst⟩ | ⟨k0, p0, q0, hc, hst⟩
  · subst hst
    simp [contribQP, hc]
  · subst hst
    by_cases hk : k0 = k
    · subst hk
      by_cases hp : p0 = p
      · subst hp
        simp [qtyAt, dictGet_dictAdd_self, histGet_histAdd_self, contribQP, hc]
      · simp [qtyAt, dictGet_dictAdd_self, histGet_histAdd_ne _ _ _ _ (Ne.symm hp),
          contribQP, hc, hp]
    · simp [qtyAt, dictGet_dictAdd_ne st k0 k p0 q0 hk, contribQP, hc, hk]

theorem step_presence (st : AucMap) (a : Auction) (st' : AucMap)
    (h : processAuction st a = Except.ok st') (k : VariantKey) (p : ℚ) :
    (optQty st' k p ≠ none ↔ optQty st k p ≠ none ∨ HitsKP a k p) := by
  rcases processAuction_ok_cases st a st' h with ⟨hc, hst⟩ | ⟨k0, p0, q0, hc, hst⟩
  · subst hst
    simp [HitsKP, hc]
  · subst hst
    by_cases hk : k0 = k
    · subst hk
      by_cases hp : p0 = p
      · subst hp
        simp [optQty, dictGet_dictAdd_self, histLookup_histAdd_self, HitsKP, hc]
      · simp [optQty, dictGet_dictAdd_self, histLookup_histAdd_ne _ _ _ _ (Ne.symm hp),
          HitsKP, hc, hp]
    · simp [optQty, dictGet_dictAdd_ne st k0 k p0 q0 hk, HitsKP, hc, hk]

theorem step_keyPresence (st : AucMap) (a : Auction) (st' : AucMap)
    (h : processAuction st a = Except.ok st') (k : VariantKey) :
    (dictLookup st' k ≠ none ↔ dictLookup st k ≠ none ∨ HitsK a k) := by
  rcases processAuction_ok_cases st a st' h with ⟨hc, hst⟩ | ⟨k0, p0, q0, hc, hst⟩
  · subst hst
    simp [HitsK, hc]
  · subst hst
    by_cases hk : k0 = k
    · subst hk
      simp [dictLookup_dictAdd_self, HitsK, hc]
    · simp [dictLookup_dictAdd_ne st k0 k p0 q0 hk, HitsK, hc, hk]

theorem goodMap_dictGet (m : AucMap) (k : VariantKey) (hm : GoodMap m) :
    (∀ pq ∈ dictGet m k, 1 ≤ pq.2) ∧ (histKeys (dictGet m k)).Nodup := by
  unfold dictGet
  cases hl : dictLookup m k with
  | none => simp
  | some h => exact hm k h hl

theorem step_neMap (st : AucMap) (a : Auction) (st' : AucMap)
    (h : processAuction st a = Except.ok st') (hm : NeMap st) : NeMap st' := by
  rcases processAuction_ok_cases st a st' h with ⟨_, hst⟩ | ⟨k0, p0, q0, _, hst⟩
  · subst hst
    exact hm
  · subst hst
    intro k hh hl
    unfold dictAdd at hl
    rcases dictLookup_dictSet_cases st k0 _ k hh hl with h1 | h1
    · rw [h1]
      exact histAdd_ne_nil _ _ _
    · exact hm k hh h1

theorem step_goodMap (st : AucMap) (a : Auction) (st' : AucMap)
    (h : processAuction st a = Except.ok st')
    (hq : ∀ q, a.quantity = some q → 1 ≤ q) (hm : GoodMap st) : GoodMap st' := by
  rcases processAuction_ok_cases st a st' h with ⟨_, hst⟩ | ⟨k0, p0, q0, hc, hst⟩
  · subst hst
    exact hm
  · subst hst
    have hq0 : 1 ≤ q0 := hq q0 (contribOf_quantity a k0 p0 q0 hc)
    intro k hh hl
    unfold dictAdd at hl
    rcases dictLookup_dictSet_cases st k0 _ k hh hl with h1 | h1
    · subst h1
      obtain ⟨hpos, hnd⟩ := goodMap_dictGet st k0 hm
      exact ⟨histAdd_pos _ _ _ hq0 hpos, histKeys_nodup_histAdd _ _ _ hnd⟩
    · exact hm k hh h1

theorem parseLoop_total (aucs : List Auction) : ∀ st m, parseLoop aucs st = Except.ok m →
    ∀ k, dictTotal m k = dictTotal st k + (aucs.map (fun a => contribQ a k)).sum := by
  induction aucs with
  | nil =>
    intro st m h k
    simp only [parseLoop] at h
    rw [← Except.ok.inj h]
    simp
  | cons a t ih =>
    intro st m h k
    cases hpa : processAuction st a with
    | error e =>
      simp only [parseLoop, hpa] at h
      exact Except.noConfusion h
    | ok st2 =>
      simp only [parseLoop, hpa] at h
      rw [ih st2 m h k, step_total st a st2 hpa k]
      simp only [List.map_cons, List.sum_cons]
      ring

theorem parseLoop_qty (aucs : List Auction) : ∀ st m, parseLoop aucs st = Except.ok m →
    ∀ k p, qtyAt m k p = qtyAt st k p + (aucs.map (fun a => contribQP a k p)).sum := by
  induction aucs with
  | nil =>
    intro st m h k p
    simp only [parseLoop] at h
    rw [← Except.ok.inj h]
    simp
  | cons a t ih =>
    intro st m h k p
    cases hpa : processAuction st a with
    | error e =>
      simp only [parseLoop, hpa] at h
      exact Except.noConfusion h
    | ok st2 =>
      simp only [parseLoop, hpa] at h
      rw [ih st2 m h k p, step_qty st a st2 hpa k p]
      simp only [List.map_cons, List.sum_cons]
      ring

theorem parseLoop_presence (aucs : List Auction) : ∀ st m, parseLoop aucs st = Except.ok m →
    ∀ k p, (optQty m k p ≠ none ↔ optQty st k p ≠ none ∨ ∃ a ∈ aucs, HitsKP a k p) := by
  induction aucs with
  | nil =>
    intro st m h k p
    simp only [parseLoop] at h
    rw [← Except.ok.inj h]
    simp
  | cons a t ih =>
    intro st m h k p
    cases hpa : processAuction st a with
    | error e =>
      simp only [parseLoop, hpa] at h
      exact Except.noConfusion h
    | ok st2 =>
      simp only [parseLoop, hpa] at h
      rw [ih st2 m h k p, step_presence st a st2 hpa k p]
      simp only [List.mem_cons]
      constructor
      · rintro ((h1 | h1) | ⟨b, hb, h1⟩)
        · exact Or.inl h1
        · exact Or.inr ⟨a, Or.inl rfl, h1⟩
        · exact Or.inr ⟨b, Or.inr hb, h1⟩
      · rintro (h1 | ⟨b, hb | hb, h1⟩)
        · exact Or.inl (Or.inl h1)
        · exact Or.inl (Or.inr (hb ▸ h1))
        · exact Or.inr ⟨b, hb, h1⟩

theorem parseLoop_keyPresence (aucs : List Auction) : ∀ st m, parseLoop aucs st = Except.ok m →
    ∀ k, (dictLookup m k ≠ none ↔ dictLookup st k ≠ none ∨ ∃ a ∈ aucs, HitsK a k) := by
  induction aucs with
  | nil =>
    intro st m h k
    simp only [parseLoop] at h
    rw [← Except.ok.inj h]
    simp
  | cons a t ih =>
    intro st m h k
    cases hpa : processAuction st a with
    | error e =>
      simp only [parseLoop, hpa] at h
      exact Except.noConfusion h
    | ok st2 =>
      simp only [parseLoop, hpa] at h
      rw [ih st2 m h k, step_keyPresence st a st2 hpa k]
      simp only [List.mem_cons]
      constructor
      · rintro ((h1 | h1) | ⟨b, hb, h1⟩)
        · exact Or.inl h1
        · exact Or.inr ⟨a, Or.inl rfl, h1⟩
        · exact Or.inr ⟨b, Or.inr hb, h1⟩
      · rintro (h1 | ⟨b, hb | hb, h1⟩)
        · exact Or.inl (Or.inl h1)
        · exact Or.inl (Or.inr (hb ▸ h1))
        · exact Or.inr ⟨b, hb, h1⟩

theorem parseLoop_neMap (aucs : List Auction) : ∀ st m, parseLoop aucs st = Except.ok m →
    NeMap st → NeMap m := by
  induction aucs with
  | nil =>
    intro st m h hm
    simp only [parseLoop] at h
    rw [← Except.ok.inj h]
    exact hm
  | cons a t ih =>
    intro st m h hm
    cases hpa : processAuction st a with
    | error e =>
      simp only [parseLoop, hpa] at h
      exact Except.noConfusion h
    | ok st2 =>
      simp only [parseLoop, hpa] at h
      exact ih st2 m h (step_neMap st a st2 hpa hm)

theorem parseLoop_goodMap (aucs : List Auction) : ∀ st m, parseLoop aucs st = Except.ok m →
    (∀ a ∈ aucs, ∀ q, a.quantity = some q → 1 ≤ q) → GoodMap st → GoodMap m := by
  induction aucs with
  | nil =>
    intro st m h _ hm
    simp only [parseLoop] at h
    rw [← Except.ok.inj h]
    exact hm
  | cons a t ih =>
    intro st m h hq hm
    cases hpa : processAuction st a with
    | error e =>
      simp only [parseLoop, hpa] at h
      exact Except.noConfusion h
    | ok st2 =>
      simp only [parseLoop, hpa] at h
      exact ih st2 m h (fun b hb => hq b (List.mem_cons_of_mem a hb))
        (step_goodMap st a st2 hpa (hq a (List.mem_cons_self a t)) hm)

theorem processAuction_bad (st : AucMap) (a : Auction) (hp : buyPrice a ≠ none)
    (hm : a.item = none ∨ ∃ it, a.item = some it ∧ it.id = none) :
    processAuction st a = Except.error PyError.keyError := by
  cases hbp : buyPrice a with
  | none => exact absurd hbp hp
  | some bp =>
    rcases hm with h1 | ⟨it, h1, h2⟩
    · simp [processAuction, hbp, h1]
    · simp [processAuction, hbp, h1, h2]

theorem parseLoop_bad (aucs : List Auction) : ∀ st (a : Auction), a ∈ aucs →
    buyPrice a ≠ none → (a.item = none ∨ ∃ it, a.item = some it ∧ it.id = none) →
    ∃ e, parseLoop aucs st = Except.error e := by
  induction aucs with
  | nil =>
    intro st a ha _ _
    exact absurd ha (List.not_mem_nil a)
  | cons b t ih =>
    intro st a ha hp hm
    rcases List.mem_cons.mp ha with h1 | h1
    · subst h1
      exact ⟨PyError.keyError, by simp only [parseLoop, processAuction_bad st a hp hm]⟩
    · cases hpb : processAuction st b with
      | error e => exact ⟨e, by simp only [parseLoop, hpb]⟩
      | ok st2 =>
        obtain ⟨e, he⟩ := ih st2 a h1 hp hm
        exact ⟨e, by simp only [parseLoop, hpb]; exact he⟩

theorem parseLoop_skip_mid (a : Auction) (ha : buyPrice a = none) (pre post : List Auction) :
    ∀ st, parseLoop (pre ++ a :: post) st = parseLoop (pre ++ post) st := by
  induction pre with
  | nil =>
    intro st
    simp only [List.nil_append, parseLoop, processAuction_skip st a ha]
  | cons b t ih =>
    intro st
    simp only [List.cons_append, parseLoop]
    cases hpb : processAuction st b with
    | error e => rfl
    | ok st2 => exact ih st2

/-- C1: a listing with a present nonzero `buyout` uses it as the total price;
failing that, a present nonzero `unit_price` is used; the price actually
bucketed is the selected price divided by the currency scale 10000; a listing
with no usable price is skipped and leaves the accumulated map unchanged. -/
theorem c1_unit_price_selection (a : Auction) (st : AucMap) :
    (∀ b, a.buyout = some b → b ≠ 0 → buyPrice a = some b) ∧
    (∀ u, hasNonzero a.buyout = false → a.unit_price = some u → u ≠ 0 →
      buyPrice a = some u) ∧
    (∀ k p q, contribOf a = some (k, p, q) →
      ∃ bp, buyPrice a = some bp ∧ p = (bp : ℚ) / 10000) ∧
    (buyPrice a = none → processAuction st a = Except.ok st) := by
  refine ⟨?_, ?_, ?_, fun h => processAuction_skip st a h⟩
  · intro b hb hnz
    simp [buyPrice, hasNonzero, hb, hnz]
  · intro u h0 hu hnz
    unfold buyPrice
    rw [h0]
    simp [hasNonzero, hu, hnz]
  · intro k p q hc
    cases hbp : buyPrice a with
    | none =>
      simp only [contribOf, hbp] at hc
      exact Option.noConfusion hc
    | some bp =>
      refine ⟨bp, rfl, ?_⟩
      cases hit : a.item with
      | none =>
        simp only [contribOf, hbp, hit] at hc
        exact Option.noConfusion hc
      | some it =>
        cases hid : it.id with
        | none =>
          simp only [contribOf, hbp, hit, hid] at hc
          exact Option.noConfusion hc
        | some iid =>
          cases hq2 : a.quantity with
          | none =>
            simp only [contribOf, hbp, hit, hid, hq2] at hc
            exact Option.noConfusion hc
          | some q2 =>
            simp only [contribOf, hbp, hit, hid, hq2, Option.some.injEq] at hc
            exact (congrArg (fun c => c.2.1) hc).symm

theorem c1_witness : buyPrice ⟨some 7, none, none, none⟩ = some 7 :=
  (c1_unit_price_selection ⟨some 7, none, none, none⟩ []).1 7 rfl (by decide)

/-- C2: on a successful run, for every variant key the total quantity stored
across that variant's price buckets equals the summed contributions of the
non-skipped listings of that variant (each listing counted once, via
`contribQ`), and no stored histogram is empty, so skipped listings never
create an empty entry. -/
theorem c2_quantity_conservation (aucs : List Auction) (m : AucMap)
    (h : parse_auctions aucs = Except.ok m) :
    (∀ k, dictTotal m k = (aucs.map (fun a => contribQ a k)).sum) ∧
    (∀ k hh, dictLookup m k = some hh → hh ≠ []) := by
  constructor
  · intro k
    have htot := parseLoop_total aucs [] m h k
    simpa [dictTotal, dictGet, dictLookup, histTotal] using htot
  · exact parseLoop_neMap aucs [] m h (fun k hh hl => Option.noConfusion hl)

theorem c2_witness :
    dictTotal [([100], [(10, 1), (4 / 5, 5)])] [100] =
      (([aucC3a, aucC3b, aucC3c]).map (fun a => contribQ a [100])).sum :=
  (c2_quantity_conservation [aucC3a, aucC3b, aucC3c] [([100], [(10, 1), (4 / 5, 5)])]
    (by norm_num [parse_auctions, parseLoop, processAuction, buyPrice, hasNonzero, aucC3a,
      aucC3b, aucC3c, dictAdd, dictGet, dictLookup, dictSet, histAdd, histLookup, histSet,
      mkKey])).1 [100]

/-- C3: on the three concrete listings for item 100 the aggregator returns
exactly one variant key `(100,)` with histogram `[10 ↦ 1, 4/5 ↦ 5]` (that is,
10.0 ↦ 1 and 0.8 ↦ 5), and the zero-priced third listing is discarded. -/
theorem c3_end_to_end :
    parse_auctions [aucC3a, aucC3b, aucC3c] =
      Except.ok [([100], [(10, 1), (4 / 5, 5)])] := by
  norm_num [parse_auctions, parseLoop, processAuction, buyPrice, hasNonzero, aucC3a, aucC3b,
    aucC3c, dictAdd, dictGet, dictLookup, dictSet, histAdd, histLookup, histSet, mkKey]

/-- C4: two variant keys agree exactly when the item ids agree and the
bonus-id lists (with a missing list read as the empty list) agree, in order;
distinct variant keys never merge: an update under one key leaves every other
key's histogram untouched. -/
theorem c4_variant_key_identity :
    (∀ i1 i2 b1 b2, mkKey i1 b1 = mkKey i2 b2 ↔ (i1 = i2 ∧ b1.getD [] = b2.getD [])) ∧
    (∀ (m : AucMap) k1 k2 p q, k1 ≠ k2 →
      dictLookup (dictAdd m k1 p q) k2 = dictLookup m k2) := by
  constructor
  · intro i1 i2 b1 b2
    cases b1 <;> cases b2 <;> simp [mkKey]
  · intro m k1 k2 p q hne
    exact dictLookup_dictAdd_ne m k1 k2 p q hne

theorem c4_witness : dictLookup (dictAdd [] [100, 1, 2] (1 : ℚ) 1) [100, 2, 1] = none := by
  rw [c4_variant_key_identity.2 [] [100, 1, 2] [100, 2, 1] (1 : ℚ) 1 (by decide)]
  rfl

/-- C7 counterexample: an input sequence containing a listing with no item id
does NOT always fail — when that listing also has no usable price the source
skips it at the price check, before the item field is read, and the call
succeeds with an empty map instead of raising. -/
theorem c7_counterexample : parse_auctions [aucC7bad] = Except.ok [] := rfl

/-- C7 (amended): an input sequence containing a listing that is missing its
item id AND carries a usable (nonzero) price fails as a whole with an error
and no partial mapping, and a non-list input fails with a `TypeError`. -/
theorem c7_missing_id_fails :
    (∀ aucs (a : Auction), a ∈ aucs → buyPrice a ≠ none →
      (a.item = none ∨ ∃ it, a.item = some it ∧ it.id = none) →
      ∃ e, parse_auctions aucs = Except.error e) ∧
    parse_auctions_checked Input.notAList = Except.error PyError.typeError :=
  ⟨fun aucs a ha hp hm => parseLoop_bad aucs [] a ha hp hm, rfl⟩

theorem c7_witness : ∃ e, parse_auctions [⟨some 5, none, none, some 1⟩] = Except.error e :=
  c7_missing_id_fails.1 [⟨some 5, none, none, some 1⟩] ⟨some 5, none, none, some 1⟩
    (List.mem_singleton.mpr rfl) (by decide) (Or.inl rfl)

/-- C10: a listing with no usable price signal is skipped before its item id,
bonus list or quantity is read: whatever those fields hold (even absent), the
loop step returns the state unchanged, and removing the listing from any
input sequence leaves the whole aggregation result (success or failure)
unchanged. -/
theorem c10_priceless_skipped (a : Auction) (ha : buyPrice a = none) :
    (∀ st, processAuction st a = Except.ok st) ∧
    (∀ pre post, parse_auctions (pre ++ a :: post) = parse_auctions (pre ++ post)) := by
  refine ⟨fun st => processAuction_skip st a ha, fun pre post => ?_⟩
  unfold parse_auctions
  exact parseLoop_skip_mid a ha pre post []

theorem c10_witness :
    parse_auctions [⟨some 0, some 0, none, none⟩, aucC3a] = parse_auctions [aucC3a] :=
  (c10_priceless_skipped ⟨some 0, some 0, none, none⟩ (by decide)).2 [] [aucC3a]

theorem qtyAt_eq_getD (m : AucMap) (k : VariantKey) (p : ℚ) :
    qtyAt m k p = (optQty m k p).getD 0 := rfl

/-- C5: aggregation is order-independent — for any two permutations of the
same listing sequence that both succeed, the resulting maps contain the same
variant keys, and every `(variant, price)` bucket is present in one exactly
when it is present in the other, with the same accumulated quantity. -/
theorem c5_order_independence (l1 l2 : List Auction) (m1 m2 : AucMap)
    (hperm : l1.Perm l2)
    (h1 : parse_auctions l1 = Except.ok m1) (h2 : parse_auctions l2 = Except.ok m2) :
    (∀ k, (dictLookup m1 k = none ↔ dictLookup m2 k = none)) ∧
    (∀ k p, optQty m1 k p = optQty m2 k p) := by
  have hqty : ∀ k p, qtyAt m1 k p = qtyAt m2 k p := by
    intro k p
    rw [parseLoop_qty l1 [] m1 h1 k p, parseLoop_qty l2 [] m2 h2 k p]
    exact congrArg (qtyAt [] k p + ·) (List.Perm.sum_eq (hperm.map _))
  have hpres : ∀ k p, (optQty m1 k p ≠ none ↔ optQty m2 k p ≠ none) := by
    intro k p
    rw [parseLoop_presence l1 [] m1 h1 k p, parseLoop_presence l2 [] m2 h2 k p]
    constructor
    · rintro (h | ⟨a, ha, hh⟩)
      · exact Or.inl h
      · exact Or.inr ⟨a, hperm.mem_iff.mp ha, hh⟩
    · rintro (h | ⟨a, ha, hh⟩)
      · exact Or.inl h
      · exact Or.inr ⟨a, hperm.mem_iff.mpr ha, hh⟩
  refine ⟨?_, ?_⟩
  · intro k
    have hk1 := parseLoop_keyPresence l1 [] m1 h1 k
    have hk2 := parseLoop_keyPresence l2 [] m2 h2 k
    refine not_iff_not.mp (hk1.trans (Iff.trans ?_ hk2.symm))
    constructor
    · rintro (h | ⟨a, ha, hh⟩)
      · exact Or.inl h
      · exact Or.inr ⟨a, hperm.mem_iff.mp ha, hh⟩
    · rintro (h | ⟨a, ha, hh⟩)
      · exact Or.inl h
      · exact Or.inr ⟨a, hperm.mem_iff.mpr ha, hh⟩
  · intro k p
    have hp := hpres k p
    have hv := hqty k p
    cases ho1 : optQty m1 k p with
    | none =>
      cases ho2 : optQty m2 k p with
      | none => rfl
      | some y =>
        rw [ho1, ho2] at hp
        simp at hp
    | some x =>
      cases ho2 : optQty m2 k p with
      | none =>
        rw [ho1, ho2] at hp
        simp at hp
      | some y =>
        have hx : qtyAt m1 k p = x := by
          rw [qtyAt_eq_getD, ho1]
          rfl
        have hy : qtyAt m2 k p = y := by
          rw [qtyAt_eq_getD, ho2]
          rfl
        exact congrArg some (by rw [← hx, hv, hy])

theorem c5_witness :
    optQty [([100], [(10, 1), (4 / 5, 5)])] [100] (4 / 5) =
      optQty [([100], [(4 / 5, 5), (10, 1)])] [100] (4 / 5) :=
  (c5_order_independence [aucC3a, aucC3b] [aucC3b, aucC3a]
    [([100], [(10, 1), (4 / 5, 5)])] [([100], [(4 / 5, 5), (10, 1)])]
    (List.Perm.swap aucC3b aucC3a [])
    (by norm_num [parse_auctions, parseLoop, processAuction, buyPrice, hasNonzero, aucC3a,
      aucC3b, dictAdd, dictGet, dictLookup, dictSet, histAdd, histLookup, histSet, mkKey])
    (by norm_num [parse_auctions, parseLoop, processAuction, buyPrice, hasNonzero, aucC3a,
      aucC3b, dictAdd, dictGet, dictLookup, dictSet, histAdd, histLookup, histSet,
      mkKey])).2 [100] (4 / 5)

/-- C6: when every input listing's quantity is at least 1, every quantity
stored in any histogram of the result is at least 1, and the price keys of
each variant's histogram are pairwise distinct. -/
theorem c6_histogram_invariants (aucs : List Auction) (m : AucMap)
    (hq : ∀ a ∈ aucs, ∀ q, a.quantity = some q → 1 ≤ q)
    (h : parse_auctions aucs = Except.ok m) :
    ∀ k hh, dictLookup m k = some hh →
      (∀ pq ∈ hh, 1 ≤ pq.2) ∧ (histKeys hh).Nodup :=
  parseLoop_goodMap aucs [] m h hq (fun _ _ hl => Option.noConfusion hl)

theorem c6_witness :
    (∀ pq ∈ [((10 : ℚ), (1 : Int)), (4 / 5, 5)], 1 ≤ pq.2) ∧
      (histKeys [((10 : ℚ), (1 : Int)), (4 / 5, 5)]).Nodup :=
  c6_histogram_invariants [aucC3a, aucC3b, aucC3c] [([100], [(10, 1), (4 / 5, 5)])]
    (by
      intro a ha q hq
      simp only [List.mem_cons, List.not_mem_nil, or_false] at ha
      rcases ha with h | h | h <;> subst h <;>
        simp only [aucC3a, aucC3b, aucC3c, Option.some.injEq] at hq <;> omega)
    (by norm_num [parse_auctions, parseLoop, processAuction, buyPrice, hasNonzero, aucC3a,
      aucC3b, aucC3c, dictAdd, dictGet, dictLookup, dictSet, histAdd, histLookup, histSet,
      mkKey])
    [100] [(10, 1), (4 / 5, 5)] rfl

theorem mul_min_nonneg (c a b : ℚ) (hc : 0 ≤ c) : c * min a b = min (c * a) (c * b) := by
  rcases le_total a b with h | h
  · rw [min_eq_left h, min_eq_left (mul_le_mul_of_nonneg_left h hc)]
  · rw [min_eq_right h, min_eq_right (mul_le_mul_of_nonneg_left h hc)]

theorem foldl_min_scale (c : ℚ) (hc : 0 ≤ c) (t : Hist) : ∀ a : ℚ,
    ((scaleHist c t).foldl (fun acc x => min acc x.1) (c * a)) =
      c * (t.foldl (fun acc x => min acc x.1) a) := by
  induction t with
  | nil =>
    intro a
    simp [scaleHist]
  | cons x xs ih =>
    intro a
    simp only [scaleHist, List.map_cons, List.foldl_cons]
    rw [← mul_min_nonneg c a x.1 hc]
    exact ih (min a x.1)

theorem minKey_scale (c : ℚ) (hc : 0 ≤ c) (h : Hist) :
    minKey (scaleHist c h) = c * minKey h := by
  cases h with
  | nil => simp [scaleHist, minKey]
  | cons pq t =>
    simp only [scaleHist, List.map_cons, minKey]
    exact foldl_min_scale c hc t pq.1

theorem mvTrim_scale (c : ℚ) (hc : 0 < c) (h : Hist) :
    mvTrim (scaleHist c h) = scaleHist c (mvTrim h) := by
  unfold mvTrim
  rw [minKey_scale c (le_of_lt hc) h]
  unfold scaleHist
  rw [List.filter_map]
  congr 1
  apply List.filter_congr
  intro pq _
  simp only [Function.comp]
  congr 1
  rw [show (3 : ℚ) * (c * minKey h) = c * (3 * minKey h) by ring]
  exact propext (mul_le_mul_left hc)

theorem weightedSum_scale (c : ℚ) (g : Hist) :
    weightedSum (scaleHist c g) = c * weightedSum g := by
  unfold weightedSum scaleHist
  rw [List.map_map]
  have hfun : ((fun pq : ℚ × Int => pq.1 * (pq.2 : ℚ)) ∘ fun pq : ℚ × Int => (c * pq.1, pq.2)) =
      fun pq : ℚ × Int => c * (pq.1 * (pq.2 : ℚ)) := by
    funext pq
    simp [mul_assoc]
  rw [hfun]
  exact List.sum_map_mul_left g (fun pq => pq.1 * (pq.2 : ℚ)) c

theorem totalQtyQ_scale (c : ℚ) (g : Hist) : totalQtyQ (scaleHist c g) = totalQtyQ g := by
  unfold totalQtyQ scaleHist
  rw [List.map_map]
  rfl

/-- C8: on the empty listing sequence the aggregator returns the empty map
and the orchestrator loop produces no summary entries — the estimator, which
is invoked exactly once per entry of the parsed map, is never invoked. -/
theorem c8_empty_input :
    parse_auctions [] = Except.ok [] ∧ buildMarketvalues [] = [] := ⟨rfl, rfl⟩

/-- C9: scaling every price key of a non-empty histogram by a constant
`c > 0` while leaving quantities unchanged scales the market value returned
by the estimator by exactly `c`. -/
theorem c9_marketvalue_scaling (h : Hist) (c : ℚ) (hc : 0 < c) (hne : h ≠ []) :
    marketvalue (scaleHist c h) = c * marketvalue h := by
  unfold marketvalue
  rw [mvTrim_scale c hc h, weightedSum_scale c (mvTrim h), totalQtyQ_scale c (mvTrim h),
    mul_div_assoc]

theorem c9_witness :
    marketvalue (scaleHist 2 [(1, 1), (2, 1)]) = 2 * marketvalue [(1, 1), (2, 1)] :=
  c9_marketvalue_scaling [(1, 1), (2, 1)] 2 (by norm_num) (by simp)

end Goblineer
